import Mathlib

/-!
Verification development for the RTTR method-invocation core and the
`array_range` bounded view.

The method wrapper embedding follows
`src/rttr/detail/method/method_wrapper.h`:

* `method_wrapper<F, Policy, default_args<>>` is embedded as
  `method_wrapper_nodef`, delegating every operation to the accessor layer.
* `method_wrapper<F, Policy, default_args<TArgs...>>` is embedded as
  `method_wrapper_def`, storing the pre-evaluated default-argument values;
  its `invoke_variadic` reproduces the arity guard at lines 156-162 of the
  source header.

The accessor layer (`method_accessor`, `invoke_defaults_helper`,
`invoke_variadic_helper`) and the file `array_range_impl.h` are not part of
the sources available here, so those operations are modelled from the spec,
as flagged in their doc comments.
-/

/-- Embedding of the `rttr::type` handle: a small closed universe of runtime
type identities sufficient to model type-erased argument checking. -/
inductive rttr_type where
  | tVoid
  | tInt
  | tStr
  | tBool
  | tCls (id : Nat)
  deriving DecidableEq, Repr

/-- Embedding of a concrete type-erased value stored inside a non-empty
`rttr::variant` or an `rttr::argument`. -/
inductive Val where
  | vInt (n : Int)
  | vStr (s : String)
  | vBool (b : Bool)
  | vObj (cls : Nat) (payload : Nat)
  deriving DecidableEq, Repr

/-- Runtime type of a type-erased value. -/
def Val.typeOf : Val → rttr_type
  | .vInt _ => .tInt
  | .vStr _ => .tStr
  | .vBool _ => .tBool
  | .vObj cls _ => .tCls cls

/-- Embedding of `rttr::variant` as used by the invocation core: either a
value or the default-constructed "no value" sentinel (`none`, the result of
`variant()`). -/
abbrev variant := Option Val

/-- Embedding of `rttr::instance`: either the empty "no instance" state or a
type-erased reference to a target object of some class. -/
inductive Inst where
  | noObj
  | obj (cls : Nat) (payload : Nat)
  deriving DecidableEq, Repr

/-- Embedding of the compile-time data that `method_accessor<F, Policy>`
derives from the callable `F` and the policy: static-ness, declaring class,
return type, per-parameter types and qualifier flags, and the underlying
callable body itself. -/
structure Callable where
  static_flag : Bool
  declaring_cls : Nat
  ret_type : rttr_type
  param_types : List rttr_type
  ref_flags : List Bool
  const_flags : List Bool
  body : Inst → List Val → Val

/-- Modelled from the spec: instance-binding check performed by the missing
accessor layer before dispatch. A static callable accepts any instance
including "no instance"; a member callable requires an instance of its
declaring class. -/
def inst_compatible (c : Callable) (obj : Inst) : Bool :=
  if c.static_flag then
    true
  else
    match obj with
    | .obj cls _ => cls == c.declaring_cls
    | .noObj => false

/-- Modelled from the spec: positional type check of a supplied argument list
against the formal parameter types; it also enforces that the counts agree. -/
def args_typed : List rttr_type → List Val → Bool
  | [], [] => true
  | t :: ts, v :: vs => (v.typeOf == t) && args_typed ts vs
  | _, _ => false

/-- Modelled from the spec: the final dispatch step of the missing accessor
layer, given a full positional argument list (one entry per formal
parameter). It checks instance binding and argument types and either calls
the underlying callable or returns the "no value" sentinel. -/
def do_dispatch (c : Callable) (obj : Inst) (args : List Val) : variant :=
  if inst_compatible c obj && args_typed c.param_types args then
    some (c.body obj args)
  else
    none

/-- Modelled from the spec: `invoke_defaults_helper<...>::invoke` from the
missing header `invoke_with_defaults.h`. The `k` supplied arguments bind
positionally to the first `k` formal parameters and the remaining formal
parameters are filled from the tail of the stored default-argument sequence;
if the defaults cannot cover the gap the "no value" sentinel is returned. -/
def invoke_with_defaults (c : Callable) (defs : List Val) (obj : Inst)
    (args : List Val) : variant :=
  if args.length ≤ c.param_types.length ∧
      c.param_types.length - args.length ≤ defs.length then
    do_dispatch c obj
      (args ++ defs.drop (defs.length - (c.param_types.length - args.length)))
  else
    none

/-- Modelled from the spec: `method_accessor<F, Policy>::invoke`, the
fixed-arity dispatch used by the specialization without default arguments;
the argument count must match the formal parameter count exactly. -/
def accessor_invoke (c : Callable) (obj : Inst) (args : List Val) : variant :=
  do_dispatch c obj args

/-- Modelled from the spec: `method_accessor<F, Policy>::invoke_variadic`.
An argument count exceeding the formal-parameter count fails immediately
with the sentinel; otherwise it behaves as the fixed-arity dispatch. -/
def accessor_invoke_variadic (c : Callable) (obj : Inst) (args : List Val) :
    variant :=
  if args.length ≤ c.param_types.length then
    do_dispatch c obj args
  else
    none

/-- Embedding of `method_wrapper<F, Policy, default_args<>>` (source lines
55-104): it stores only the callable accessor `m_func_acc`. -/
structure method_wrapper_nodef where
  m_func_acc : Callable

/-- The `invoke` overloads of the no-defaults specialization, which all
delegate to `method_accessor<F, Policy>::invoke`; the 0..6 fixed-arity
overloads are embedded uniformly over an argument list. -/
def method_wrapper_nodef.invoke (w : method_wrapper_nodef) (obj : Inst)
    (args : List Val) : variant :=
  accessor_invoke w.m_func_acc obj args

/-- Source lines 97-100: `invoke_variadic` of the no-defaults specialization
delegates to `method_accessor<F, Policy>::invoke_variadic`. -/
def method_wrapper_nodef.invoke_variadic (w : method_wrapper_nodef)
    (obj : Inst) (args : List Val) : variant :=
  accessor_invoke_variadic w.m_func_acc obj args

/-- Source line 62. -/
def method_wrapper_nodef.is_static (w : method_wrapper_nodef) : Bool :=
  w.m_func_acc.static_flag

/-- Source line 63. -/
def method_wrapper_nodef.get_return_type (w : method_wrapper_nodef) :
    rttr_type :=
  w.m_func_acc.ret_type

/-- Source line 64. -/
def method_wrapper_nodef.get_is_reference (w : method_wrapper_nodef) :
    List Bool :=
  w.m_func_acc.ref_flags

/-- Source line 65. -/
def method_wrapper_nodef.get_is_const (w : method_wrapper_nodef) :
    List Bool :=
  w.m_func_acc.const_flags

/-- Source line 66. -/
def method_wrapper_nodef.get_parameter_types (w : method_wrapper_nodef) :
    List rttr_type :=
  w.m_func_acc.param_types

/-- Embedding of `method_wrapper<F, Policy, default_args<TArgs...>>` (source
lines 109-167): it stores the callable accessor `m_func_acc` and the
pre-evaluated default-argument values `m_def_args` (source line 166),
aligned with the trailing formal parameters. -/
structure method_wrapper_def where
  m_func_acc : Callable
  m_def_args : List Val

/-- Source lines 127-154: every fixed-arity `invoke` overload delegates to
`invoke_with_defaults::invoke(m_func_acc, object, m_def_args.m_args, ...)`;
the 0..6 overloads are embedded uniformly over an argument list. -/
def method_wrapper_def.invoke (w : method_wrapper_def) (obj : Inst)
    (args : List Val) : variant :=
  invoke_with_defaults w.m_func_acc w.m_def_args obj args

/-- Source lines 156-162: `invoke_variadic` first checks
`args.size() <= function_traits<F>::arg_count` and returns the
default-constructed `variant()` otherwise; within bounds it forwards the
supplied arguments to the defaults-aware dispatch
(`invoke_variadic_helper`, modelled from the spec). -/
def method_wrapper_def.invoke_variadic (w : method_wrapper_def) (obj : Inst)
    (args : List Val) : variant :=
  if args.length ≤ w.m_func_acc.param_types.length then
    invoke_with_defaults w.m_func_acc w.m_def_args obj args
  else
    none

/-- Source line 121. -/
def method_wrapper_def.is_static (w : method_wrapper_def) : Bool :=
  w.m_func_acc.static_flag

/-- Source line 122. -/
def method_wrapper_def.get_return_type (w : method_wrapper_def) :
    rttr_type :=
  w.m_func_acc.ret_type

/-- Source line 123. -/
def method_wrapper_def.get_is_reference (w : method_wrapper_def) :
    List Bool :=
  w.m_func_acc.ref_flags

/-- Source line 124. -/
def method_wrapper_def.get_is_const (w : method_wrapper_def) : List Bool :=
  w.m_func_acc.const_flags

/-- Source line 125. -/
def method_wrapper_def.get_parameter_types (w : method_wrapper_def) :
    List rttr_type :=
  w.m_func_acc.param_types

/-- Sample 3-parameter member callable used by concrete witnesses: parameter
types `(int, int, string)`, declaring class `1`. -/
def sampleCallable3 : Callable :=
  { static_flag := false
    declaring_cls := 1
    ret_type := .tInt
    param_types := [.tInt, .tInt, .tStr]
    ref_flags := [false, false, false]
    const_flags := [false, false, false]
    body := fun _ args =>
      .vInt (args.foldl (fun a v => a + (match v with | .vInt n => n | _ => 0)) 0) }

/-- Sample wrapper with stored defaults `(10, "x")` for the last two
parameters of `sampleCallable3`. -/
def sampleW3 : method_wrapper_def :=
  { m_func_acc := sampleCallable3, m_def_args := [.vInt 10, .vStr "x"] }

/-- Sample compatible target instance of class `1`. -/
def sampleObj : Inst := .obj 1 0

/-- C1: for every method wrapper (with or without stored defaults), every
target instance and every argument list whose size exceeds the callable's
total formal-parameter count, `invoke_variadic` returns the "no value"
sentinel. The quantification is over every wrapper, hence over every
underlying callable body, so the result is independent of the callable:
it is never dispatched. -/
theorem claim_c1 (wD : method_wrapper_def) (wN : method_wrapper_nodef)
    (obj : Inst) (args : List Val) :
    (wD.m_func_acc.param_types.length < args.length →
      wD.invoke_variadic obj args = none) ∧
    (wN.m_func_acc.param_types.length < args.length →
      wN.invoke_variadic obj args = none) := by
  constructor
  · intro h
    unfold method_wrapper_def.invoke_variadic
    rw [if_neg (Nat.not_le.mpr h)]
  · intro h
    unfold method_wrapper_nodef.invoke_variadic accessor_invoke_variadic
    rw [if_neg (Nat.not_le.mpr h)]

/-- Witness for C1 at a concrete oversized argument list. -/
theorem claim_c1_witness :
    (3 < 4 → sampleW3.invoke_variadic sampleObj
        [.vInt 1, .vInt 2, .vStr "a", .vInt 4] = none) ∧
    ((3:Nat) < 4 → (method_wrapper_nodef.mk sampleCallable3).invoke_variadic
        sampleObj [.vInt 1, .vInt 2, .vStr "a", .vInt 4] = none) :=
  claim_c1 sampleW3 (method_wrapper_nodef.mk sampleCallable3) sampleObj
    [.vInt 1, .vInt 2, .vStr "a", .vInt 4]

/-- C2: for every wrapper with stored trailing default values, invoking with
`k` explicit arguments (where the defaults cover the remaining tail) gives
exactly the same result as invoking with the full argument list obtained by
appending the used suffix of the stored default sequence. -/
theorem claim_c2 (w : method_wrapper_def) (obj : Inst) (args : List Val)
    (hk : args.length ≤ w.m_func_acc.param_types.length)
    (hd : w.m_func_acc.param_types.length - args.length ≤
      w.m_def_args.length) :
    w.invoke obj args =
      w.invoke obj (args ++ w.m_def_args.drop (w.m_def_args.length -
        (w.m_func_acc.param_types.length - args.length))) := by
  unfold method_wrapper_def.invoke invoke_with_defaults
  have hlen : (args ++ w.m_def_args.drop (w.m_def_args.length -
      (w.m_func_acc.param_types.length - args.length))).length =
      w.m_func_acc.param_types.length := by
    simp only [List.length_append, List.length_drop]
    omega
  rw [if_pos ⟨hk, hd⟩, if_pos ⟨le_of_eq hlen, by rw [hlen]; simp⟩]
  rw [hlen]
  simp [List.drop_length]

/-- Witness for C2, realizing the spec's example scenario: a 3-parameter
method whose last two parameters default to `(10, "x")`; one explicit
argument followed by the two defaults gives the same result as the single
explicit argument alone. -/
theorem claim_c2_witness :
    sampleW3.invoke sampleObj [.vInt 7] =
      sampleW3.invoke sampleObj ([.vInt 7] ++ sampleW3.m_def_args.drop
        (sampleW3.m_def_args.length -
          (sampleW3.m_func_acc.param_types.length - 1))) :=
  claim_c2 sampleW3 sampleObj [.vInt 7] (by decide) (by decide)

/-- An argument list that type-checks has exactly as many entries as there
are formal parameter types. -/
theorem args_typed_length (ts : List rttr_type) (vs : List Val)
    (h : args_typed ts vs = true) : vs.length = ts.length := by
  induction ts generalizing vs with
  | nil => cases vs with
    | nil => rfl
    | cons v vs => simp [args_typed] at h
  | cons t ts ih => cases vs with
    | nil => simp [args_typed] at h
    | cons v vs =>
      simp only [args_typed, Bool.and_eq_true] at h
      simp [ih vs h.2]

/-- Splitting lemma for the positional type check over concatenations whose
first halves have matching lengths. -/
theorem args_typed_append (ts ts' : List rttr_type) (vs vs' : List Val)
    (h : vs.length = ts.length) :
    args_typed (ts ++ ts') (vs ++ vs') =
      (args_typed ts vs && args_typed ts' vs') := by
  induction ts generalizing vs with
  | nil =>
    cases vs with
    | nil => simp [args_typed]
    | cons v vs => simp at h
  | cons t ts ih =>
    cases vs with
    | nil => simp at h
    | cons v vs =>
      simp only [List.length_cons, Nat.succ.injEq] at h
      simp only [List.cons_append, args_typed, List.append_eq, ih vs h,
        Bool.and_assoc]

/-- The positional type check is preserved by dropping the same number of
leading entries on both sides. -/
theorem args_typed_drop (ts : List rttr_type) (vs : List Val) (m : Nat)
    (h : args_typed ts vs = true) :
    args_typed (ts.drop m) (vs.drop m) = true := by
  induction m generalizing ts vs with
  | zero => simpa using h
  | succ m ih =>
    cases ts with
    | nil =>
      cases vs with
      | nil => simpa using h
      | cons v vs => simp [args_typed] at h
    | cons t ts =>
      cases vs with
      | nil => simp [args_typed] at h
      | cons v vs =>
        simp only [args_typed, Bool.and_eq_true] at h
        simpa using ih ts vs h.2

/-- C3: for every wrapper whose callable has `n` formal parameters of which
the last `d` carry stored defaults (well-typed against the trailing
parameter types) and a compatible instance: `invoke` with exactly `n`
well-typed arguments succeeds; `invoke` with any well-typed count from
`n - d` to `n - 1` succeeds using the stored defaults for the missing tail;
and `invoke` with fewer than `n - d` arguments returns the "no value"
sentinel. -/
theorem claim_c3 (w : method_wrapper_def) (obj : Inst) (args : List Val)
    (hdn : w.m_def_args.length ≤ w.m_func_acc.param_types.length)
    (hwf : args_typed (w.m_func_acc.param_types.drop
        (w.m_func_acc.param_types.length - w.m_def_args.length))
        w.m_def_args = true)
    (hinst : inst_compatible w.m_func_acc obj = true) :
    (args.length = w.m_func_acc.param_types.length →
      args_typed w.m_func_acc.param_types args = true →
      w.invoke obj args ≠ none) ∧
    (w.m_func_acc.param_types.length - w.m_def_args.length ≤ args.length →
      args.length < w.m_func_acc.param_types.length →
      args_typed (w.m_func_acc.param_types.take args.length) args = true →
      w.invoke obj args ≠ none) ∧
    (args.length < w.m_func_acc.param_types.length - w.m_def_args.length →
      w.invoke obj args = none) := by
  refine ⟨?_, ?_, ?_⟩
  · intro hlen htyped
    unfold method_wrapper_def.invoke invoke_with_defaults
    rw [if_pos ⟨le_of_eq hlen, by omega⟩]
    rw [hlen, Nat.sub_self, Nat.sub_zero, List.drop_length, List.append_nil]
    simp [do_dispatch, hinst, htyped]
  · intro hge hlt htyped
    unfold method_wrapper_def.invoke invoke_with_defaults
    rw [if_pos ⟨le_of_lt hlt, by omega⟩]
    have hfull : args_typed w.m_func_acc.param_types
        (args ++ w.m_def_args.drop (w.m_def_args.length -
          (w.m_func_acc.param_types.length - args.length))) = true := by
      have htk : args.length =
          (w.m_func_acc.param_types.take args.length).length := by
        simp [List.length_take]
        omega
      have h2 := args_typed_drop _ _ (w.m_def_args.length -
        (w.m_func_acc.param_types.length - args.length)) hwf
      rw [List.drop_drop] at h2
      have hidx : w.m_func_acc.param_types.length - w.m_def_args.length +
          (w.m_def_args.length -
            (w.m_func_acc.param_types.length - args.length)) =
          args.length := by omega
      rw [hidx] at h2
      have hsplit := args_typed_append
        (w.m_func_acc.param_types.take args.length)
        (w.m_func_acc.param_types.drop args.length)
        args
        (w.m_def_args.drop (w.m_def_args.length -
          (w.m_func_acc.param_types.length - args.length)))
        htk
      rw [List.take_append_drop] at hsplit
      rw [hsplit, htyped, h2]
      rfl
    simp [do_dispatch, hinst, hfull]
  · intro hlt
    unfold method_wrapper_def.invoke invoke_with_defaults
    rw [if_neg]
    rintro ⟨-, h2⟩
    omega

/-- Witness for C3 on the sample wrapper (`n = 3`, `d = 2`): the empty
argument list falls below `n - d` and yields the sentinel, while a full
well-typed argument list succeeds. -/
theorem claim_c3_witness :
    sampleW3.invoke sampleObj [] = none ∧
    sampleW3.invoke sampleObj [.vInt 1, .vInt 2, .vStr "s"] ≠ none := by
  have h0 := claim_c3 sampleW3 sampleObj [] (by decide) (by decide)
    (by decide)
  have h3 := claim_c3 sampleW3 sampleObj [.vInt 1, .vInt 2, .vStr "s"]
    (by decide) (by decide) (by decide)
  exact ⟨h0.2.2 (by decide), h3.1 (by decide) (by decide)⟩

/-- An observable operation on a method wrapper, covering both invocation
entry points and all five introspection accessors. -/
inductive MOp where
  | opInvoke (obj : Inst) (args : List Val)
  | opInvokeVariadic (obj : Inst) (args : List Val)
  | opIsStatic
  | opGetReturnType
  | opGetParameterTypes
  | opGetIsReference
  | opGetIsConst

/-- Result of one observable wrapper operation. -/
inductive MOpResult where
  | resVariant (v : variant)
  | resBool (b : Bool)
  | resType (t : rttr_type)
  | resTypes (ts : List rttr_type)
  | resBools (bs : List Bool)

/-- State-passing semantics of one operation on the defaults-carrying
wrapper. Every member function of the source class is `const` and the data
members are ordinary value fields, so each operation returns the wrapper
state it was called on. -/
def method_wrapper_def.run (w : method_wrapper_def) :
    MOp → MOpResult × method_wrapper_def
  | .opInvoke obj args => (.resVariant (w.invoke obj args), w)
  | .opInvokeVariadic obj args => (.resVariant (w.invoke_variadic obj args), w)
  | .opIsStatic => (.resBool w.is_static, w)
  | .opGetReturnType => (.resType w.get_return_type, w)
  | .opGetParameterTypes => (.resTypes w.get_parameter_types, w)
  | .opGetIsReference => (.resBools w.get_is_reference, w)
  | .opGetIsConst => (.resBools w.get_is_const, w)

/-- State-passing semantics of one operation on the no-defaults wrapper. -/
def method_wrapper_nodef.run (w : method_wrapper_nodef) :
    MOp → MOpResult × method_wrapper_nodef
  | .opInvoke obj args => (.resVariant (w.invoke obj args), w)
  | .opInvokeVariadic obj args => (.resVariant (w.invoke_variadic obj args), w)
  | .opIsStatic => (.resBool w.is_static, w)
  | .opGetReturnType => (.resType w.get_return_type, w)
  | .opGetParameterTypes => (.resTypes w.get_parameter_types, w)
  | .opGetIsReference => (.resBools w.get_is_reference, w)
  | .opGetIsConst => (.resBools w.get_is_const, w)

/-- C4: every method wrapper is immutable after construction: no operation
(invocation or introspection) changes the stored callable or the stored
default-argument values, and after any sequence of prior operations the
same operation still produces the same result. -/
theorem claim_c4 (w : method_wrapper_def) (wn : method_wrapper_nodef)
    (op : MOp) (ops : List MOp) :
    (w.run op).2 = w ∧ (wn.run op).2 = wn ∧
    (ops.foldl (fun s o => (s.run o).2) w).run op = w.run op ∧
    (ops.foldl (fun s o => (s.run o).2) wn).run op = wn.run op := by
  have hD : ∀ (v : method_wrapper_def) (o : MOp), (v.run o).2 = v := by
    intro v o; cases o <;> rfl
  have hN : ∀ (v : method_wrapper_nodef) (o : MOp), (v.run o).2 = v := by
    intro v o; cases o <;> rfl
  have hfD : ops.foldl (fun s o => (s.run o).2) w = w := by
    induction ops with
    | nil => rfl
    | cons o os ih => simp [List.foldl_cons, hD, ih]
  have hfN : ops.foldl (fun s o => (s.run o).2) wn = wn := by
    induction ops with
    | nil => rfl
    | cons o os ih => simp [List.foldl_cons, hN, ih]
  exact ⟨hD w op, hN wn op, by rw [hfD], by rw [hfN]⟩

/-- C9: for the same callable and policy (embedded as the same `Callable`
record), the five introspection accessors of the defaults-carrying
specialization return exactly the values of the no-defaults specialization,
for every stored default-argument sequence: both delegate to the same
`method_accessor<F, Policy>` functions. -/
theorem claim_c9 (c : Callable) (defs : List Val) :
    (method_wrapper_def.mk c defs).is_static =
      (method_wrapper_nodef.mk c).is_static ∧
    (method_wrapper_def.mk c defs).get_return_type =
      (method_wrapper_nodef.mk c).get_return_type ∧
    (method_wrapper_def.mk c defs).get_parameter_types =
      (method_wrapper_nodef.mk c).get_parameter_types ∧
    (method_wrapper_def.mk c defs).get_is_reference =
      (method_wrapper_nodef.mk c).get_is_reference ∧
    (method_wrapper_def.mk c defs).get_is_const =
      (method_wrapper_nodef.mk c).get_is_const :=
  ⟨rfl, rfl, rfl, rfl, rfl⟩

/-- Embedding of `rttr::detail::default_predicate` (array_range.h lines
52-62): a stored predicate function; the default constructor stores the
always-true lambda. -/
structure default_predicate (T : Type) where
  m_func : T → Bool

/-- The default constructor of `default_predicate` (array_range.h line 57):
it stores `[](const T&){ return true; }`. -/
def default_predicate.mkDefault (T : Type) : default_predicate T :=
  ⟨fun _ => true⟩

/-- Call operator of `default_predicate` (array_range.h line 59). -/
def default_predicate.call {T : Type} (p : default_predicate T) (x : T) :
    Bool :=
  p.m_func x

/-- Embedding of `array_range<T, Predicate>` (array_range.h lines 86-330):
`data` models the contiguous element sequence between the stored bounds
`m_begin` and `m_end`, and `m_pred` the stored predicate. Iterator
positions are embedded as indices into `data`: forward positions range
over `0 .. data.length` with `data.length` playing the role of `end()`,
and reverse positions over `-1 .. data.length - 1` with `-1` playing the
role of `rend()`. -/
structure array_range_pred (T : Type) where
  data : List T
  m_pred : T → Bool

/-- Smallest index `j ≥ i` (with `xs` standing for the elements at indices
`i, i+1, ...`) whose element the predicate accepts, or the index one past
the scanned elements when every one is rejected. -/
def firstFromAux {T : Type} (pred : T → Bool) : List T → Nat → Nat
  | [], i => i
  | x :: xs, i => if pred x then i else firstFromAux pred xs (i + 1)

/-- Largest index `j < i` whose element the predicate accepts, or `-1` when
every element below `i` is rejected. -/
def lastBelow {T : Type} (pred : T → Bool) (data : List T) : Nat → Int
  | 0 => -1
  | i + 1 =>
    match data[i]? with
    | some x => if pred x then (i : Int) else lastBelow pred data i
    | none => lastBelow pred data i

/-- Modelled from the spec: `begin()` of the predicate specialization skips
rejected elements already on construction of the initial iterator. -/
def array_range_pred.begin_idx {T : Type} (r : array_range_pred T) : Nat :=
  firstFromAux r.m_pred r.data 0

/-- Position of `end()`: one past the last element of the underlying
array. -/
def array_range_pred.end_idx {T : Type} (r : array_range_pred T) : Nat :=
  r.data.length

/-- Modelled from the spec: `next` (array_range.h line 315), the forward
iterator advancement, which skips elements the predicate rejects. -/
def array_range_pred.next_idx {T : Type} (r : array_range_pred T) (i : Nat) :
    Nat :=
  firstFromAux r.m_pred (r.data.drop (i + 1)) (i + 1)

/-- Modelled from the spec: `rbegin()` skips rejected elements starting from
the last element of the underlying array. -/
def array_range_pred.rbegin_idx {T : Type} (r : array_range_pred T) : Int :=
  lastBelow r.m_pred r.data r.data.length

/-- Position of `rend()`: one before the first element of the underlying
array. -/
def array_range_pred.rend_idx {T : Type} (_ : array_range_pred T) : Int :=
  -1

/-- Modelled from the spec: `prev` (array_range.h line 318), the reverse
iterator advancement, which skips elements the predicate rejects. -/
def array_range_pred.prev_idx {T : Type} (r : array_range_pred T) (i : Int) :
    Int :=
  lastBelow r.m_pred r.data i.toNat

/-- Modelled from the spec: `size()` of the predicate specialization counts
the elements that pass the predicate. -/
def array_range_pred.size {T : Type} (r : array_range_pred T) : Nat :=
  List.countP r.m_pred r.data

/-- Modelled from the spec: `empty()` is equivalent to
`begin() == end()`. -/
def array_range_pred.empty {T : Type} (r : array_range_pred T) : Bool :=
  r.begin_idx == r.end_idx

/-- Fuel-bounded forward traversal: starting from a forward iterator
position, repeatedly dereference and advance with `next` until `end()` is
reached, collecting the visited elements. -/
def collectFwd {T : Type} (r : array_range_pred T) : Nat → Nat → List T
  | 0, _ => []
  | fuel + 1, i =>
    match r.data[i]? with
    | none => []
    | some x => x :: collectFwd r fuel (r.next_idx i)

/-- The element sequence observed by iterating from `begin()` to
`end()`. -/
def array_range_pred.fwd_seq {T : Type} (r : array_range_pred T) : List T :=
  collectFwd r (r.data.length + 1) r.begin_idx

/-- Fuel-bounded reverse traversal: starting from a reverse iterator
position, repeatedly dereference and advance with `prev` until `rend()` is
reached, collecting the visited elements. -/
def collectRev {T : Type} (r : array_range_pred T) : Nat → Int → List T
  | 0, _ => []
  | fuel + 1, i =>
    if i < 0 then []
    else
      match r.data[i.toNat]? with
      | none => []
      | some x => x :: collectRev r fuel (r.prev_idx i)

/-- The element sequence observed by iterating from `rbegin()` to
`rend()`. -/
def array_range_pred.rev_seq {T : Type} (r : array_range_pred T) : List T :=
  collectRev r (r.data.length + 1) r.rbegin_idx

/-- Embedding of the specialization `array_range<T, detail::no_predicate>`
(array_range.h lines 338-572): only the bounds are stored, embedded as the
element sequence `data`. -/
structure array_range_nopred (T : Type) where
  data : List T

/-- Modelled from the spec: `begin()` of the no-predicate specialization is
the raw lower bound. -/
def array_range_nopred.begin_idx {T : Type} (_ : array_range_nopred T) :
    Nat :=
  0

/-- Position of `end()` of the no-predicate specialization. -/
def array_range_nopred.end_idx {T : Type} (r : array_range_nopred T) : Nat :=
  r.data.length

/-- Modelled from the spec: forward advancement of the no-predicate
specialization is a plain increment. -/
def array_range_nopred.next_idx {T : Type} (_ : array_range_nopred T)
    (i : Nat) : Nat :=
  i + 1

/-- Modelled from the spec: `rbegin()` of the no-predicate specialization is
the last element of the underlying array. -/
def array_range_nopred.rbegin_idx {T : Type} (r : array_range_nopred T) :
    Int :=
  (r.data.length : Int) - 1

/-- Position of `rend()` of the no-predicate specialization. -/
def array_range_nopred.rend_idx {T : Type} (_ : array_range_nopred T) :
    Int :=
  -1

/-- Modelled from the spec: reverse advancement of the no-predicate
specialization is a plain decrement. -/
def array_range_nopred.prev_idx {T : Type} (_ : array_range_nopred T)
    (i : Int) : Int :=
  i - 1

/-- Modelled from the spec: `size()` of the no-predicate specialization is
the raw distance between the bounds. -/
def array_range_nopred.size {T : Type} (r : array_range_nopred T) : Nat :=
  r.data.length

/-- Modelled from the spec: `empty()` of the no-predicate specialization is
equivalent to `begin() == end()`. -/
def array_range_nopred.empty {T : Type} (r : array_range_nopred T) : Bool :=
  r.data.length == 0

/-- Fuel-bounded forward traversal of the no-predicate specialization. -/
def collectFwdNp {T : Type} (r : array_range_nopred T) : Nat → Nat → List T
  | 0, _ => []
  | fuel + 1, i =>
    match r.data[i]? with
    | none => []
    | some x => x :: collectFwdNp r fuel (r.next_idx i)

/-- The element sequence observed by iterating the no-predicate
specialization from `begin()` to `end()`. -/
def array_range_nopred.fwd_seq {T : Type} (r : array_range_nopred T) :
    List T :=
  collectFwdNp r (r.data.length + 1) r.begin_idx

/-- Fuel-bounded reverse traversal of the no-predicate specialization. -/
def collectRevNp {T : Type} (r : array_range_nopred T) : Nat → Int → List T
  | 0, _ => []
  | fuel + 1, i =>
    if i < 0 then []
    else
      match r.data[i.toNat]? with
      | none => []
      | some x => x :: collectRevNp r fuel (r.prev_idx i)

/-- The element sequence observed by iterating the no-predicate
specialization from `rbegin()` to `rend()`. -/
def array_range_nopred.rev_seq {T : Type} (r : array_range_nopred T) :
    List T :=
  collectRevNp r (r.data.length + 1) r.rbegin_idx

/-- A forward scan never moves backwards. -/
theorem firstFromAux_ge {T : Type} (pred : T → Bool) (xs : List T) (i : Nat) :
    i ≤ firstFromAux pred xs i := by
  induction xs generalizing i with
  | nil => simp [firstFromAux]
  | cons x xs ih =>
    simp only [firstFromAux]
    split
    · exact le_refl i
    · exact le_trans (Nat.le_succ i) (ih (i + 1))

/-- A forward scan never moves past the scanned elements. -/
theorem firstFromAux_le {T : Type} (pred : T → Bool) (xs : List T) (i : Nat) :
    firstFromAux pred xs i ≤ i + xs.length := by
  induction xs generalizing i with
  | nil => simp [firstFromAux]
  | cons x xs ih =>
    simp only [firstFromAux, List.length_cons]
    split
    · omega
    · have := ih (i + 1)
      omega

/-- A forward scan reaches the far end exactly when the predicate rejects
every scanned element. -/
theorem firstFromAux_eq_iff {T : Type} (pred : T → Bool) (xs : List T)
    (i : Nat) :
    firstFromAux pred xs i = i + xs.length ↔
      ∀ x ∈ xs, pred x = false := by
  induction xs generalizing i with
  | nil => simp [firstFromAux]
  | cons x xs ih =>
    simp only [firstFromAux, List.length_cons, List.mem_cons]
    by_cases hx : pred x
    · rw [if_pos hx]
      constructor
      · intro h; omega
      · intro h
        have := h x (Or.inl rfl)
        rw [hx] at this
        cases this
    · rw [if_neg hx]
      rw [show i + (xs.length + 1) = (i + 1) + xs.length by omega, ih (i + 1)]
      constructor
      · intro h y hy
        rcases hy with rfl | hy
        · exact Bool.eq_false_iff.mpr hx
        · exact h y hy
      · intro h y hy
        exact h y (Or.inr hy)

/-- Characterization of where a forward scan stops: either one past the
scanned elements, or at the first scanned element the predicate accepts. -/
theorem firstFromAux_result {T : Type} (pred : T → Bool) (xs : List T)
    (i : Nat) :
    firstFromAux pred xs i = i + xs.length ∨
      ∃ k, k < xs.length ∧ firstFromAux pred xs i = i + k ∧
        ∃ x, xs[k]? = some x ∧ pred x = true := by
  induction xs generalizing i with
  | nil => simp [firstFromAux]
  | cons x xs ih =>
    simp only [firstFromAux]
    by_cases hx : pred x
    · rw [if_pos hx]
      right
      exact ⟨0, by simp, by omega, x, by simp, hx⟩
    · rw [if_neg hx]
      rcases ih (i + 1) with h | ⟨k, hk, heq, y, hy, hpy⟩
      · left
        simp only [List.length_cons]
        omega
      · right
        refine ⟨k + 1, by simpa using hk, by omega, y, ?_, hpy⟩
        simpa using hy

/-- Forward traversal started at the first accepted position at or after
index `i` collects exactly the accepted elements of the remaining suffix,
in order. -/
theorem collectFwd_from {T : Type} (r : array_range_pred T) (xs : List T) :
    ∀ (i fuel : Nat), r.data.drop i = xs → xs.length < fuel →
    collectFwd r fuel (firstFromAux r.m_pred xs i) = xs.filter r.m_pred := by
  induction xs with
  | nil =>
    intro i fuel h hf
    cases fuel with
    | zero => omega
    | succ f =>
      simp only [firstFromAux, collectFwd]
      rw [List.getElem?_eq_none (List.drop_eq_nil_iff.mp h)]
      rfl
  | cons x xs ih =>
    intro i fuel h hf
    have hget : r.data[i]? = some x := by
      have hd := List.getElem?_drop r.data i 0
      rw [h] at hd
      simpa using hd.symm
    have hdrop1 : r.data.drop (i + 1) = xs := by
      have ht := List.tail_drop r.data i
      rw [h] at ht
      simpa using ht.symm
    by_cases hx : r.m_pred x
    · simp only [firstFromAux, if_pos hx]
      cases fuel with
      | zero => omega
      | succ f =>
        simp only [collectFwd, hget]
        rw [List.filter_cons_of_pos hx]
        congr 1
        have hnext : r.next_idx i = firstFromAux r.m_pred xs (i + 1) := by
          unfold array_range_pred.next_idx
          rw [hdrop1]
        rw [hnext]
        exact ih (i + 1) f hdrop1 (by simpa using Nat.lt_of_succ_lt_succ hf)
    · simp only [firstFromAux, if_neg hx]
      rw [List.filter_cons_of_neg (by simp [hx])]
      exact ih (i + 1) fuel hdrop1 (by simp at hf; omega)

/-- The forward iteration of a predicate-filtered range observes exactly the
accepted elements of the underlying array, in array order. -/
theorem fwd_seq_eq_filter {T : Type} (r : array_range_pred T) :
    r.fwd_seq = r.data.filter r.m_pred := by
  unfold array_range_pred.fwd_seq array_range_pred.begin_idx
  have h0 : r.data.drop 0 = r.data := List.drop_zero r.data
  have := collectFwd_from r r.data 0 (r.data.length + 1) h0 (by omega)
  simpa using this

/-- Characterization of where a backward scan stops: either at `-1`, or at
an accepted element strictly below the start. -/
theorem lastBelow_result {T : Type} (pred : T → Bool) (data : List T)
    (i : Nat) :
    lastBelow pred data i = -1 ∨
      ∃ j : Nat, lastBelow pred data i = (j : Int) ∧ j < i ∧
        ∃ x, data[j]? = some x ∧ pred x = true := by
  induction i with
  | zero => left; rfl
  | succ i ih =>
    cases hg : data[i]? with
    | none =>
      simp only [lastBelow, hg]
      rcases ih with h | ⟨j, hj, hlt, hx⟩
      · left; exact h
      · right; exact ⟨j, hj, Nat.lt_succ_of_lt hlt, hx⟩
    | some x =>
      simp only [lastBelow, hg]
      by_cases hx : pred x
      · rw [if_pos hx]
        right
        exact ⟨i, rfl, Nat.lt_succ_self i, x, hg, hx⟩
      · rw [if_neg hx]
        rcases ih with h | ⟨j, hj, hlt, hy⟩
        · left; exact h
        · right; exact ⟨j, hj, Nat.lt_succ_of_lt hlt, hy⟩

/-- Backward traversal started at the last accepted position below index
`i` collects exactly the accepted elements among the first `i` elements, in
reverse order. -/
theorem collectRev_from {T : Type} (r : array_range_pred T) :
    ∀ (i fuel : Nat), i ≤ r.data.length → i < fuel →
    collectRev r fuel (lastBelow r.m_pred r.data i) =
      ((r.data.take i).filter r.m_pred).reverse := by
  intro i
  induction i with
  | zero =>
    intro fuel _ hf
    cases fuel with
    | zero => omega
    | succ f => simp [lastBelow, collectRev]
  | succ i ih =>
    intro fuel hle hf
    have hi : i < r.data.length := hle
    have hget : r.data[i]? = some r.data[i] := List.getElem?_eq_getElem hi
    have htake : r.data.take (i + 1) = r.data.take i ++ [r.data[i]] :=
      (List.take_concat_get' r.data i hi).symm
    simp only [lastBelow, hget]
    by_cases hx : r.m_pred r.data[i]
    · rw [if_pos hx]
      cases fuel with
      | zero => omega
      | succ f =>
        simp only [collectRev]
        rw [if_neg (by omega : ¬((i : Int) < 0))]
        simp only [Int.toNat_natCast, hget]
        rw [htake, List.filter_append, List.filter_cons_of_pos hx,
          List.filter_nil, List.reverse_append]
        simp only [List.reverse_cons, List.reverse_nil, List.nil_append,
          List.singleton_append]
        congr 1
        have hprev : r.prev_idx (i : Int) = lastBelow r.m_pred r.data i := by
          unfold array_range_pred.prev_idx
          rw [Int.toNat_natCast]
        rw [hprev]
        exact ih f (le_of_lt hi) (Nat.lt_of_succ_lt_succ hf)
    · rw [if_neg hx]
      rw [htake, List.filter_append, List.filter_cons_of_neg (by simp [hx]),
        List.filter_nil, List.append_nil]
      exact ih fuel (le_of_lt hi) (Nat.lt_of_succ_lt hf)

/-- The reverse iteration of a predicate-filtered range observes exactly the
accepted elements of the underlying array, in reverse array order. -/
theorem rev_seq_eq_filter_reverse {T : Type} (r : array_range_pred T) :
    r.rev_seq = (r.data.filter r.m_pred).reverse := by
  unfold array_range_pred.rev_seq array_range_pred.rbegin_idx
  have := collectRev_from r r.data.length (r.data.length + 1) (le_refl _)
    (by omega)
  rwa [List.take_length] at this

/-- Forward traversal of the no-predicate specialization from index `i`
collects the whole remaining suffix. -/
theorem collectFwdNp_eq {T : Type} (r : array_range_nopred T) :
    ∀ (fuel i : Nat), r.data.length - i < fuel →
    collectFwdNp r fuel i = r.data.drop i := by
  intro fuel
  induction fuel with
  | zero => intro i h; omega
  | succ f ih =>
    intro i h
    simp only [collectFwdNp]
    cases hg : r.data[i]? with
    | none =>
      have hge : r.data.length ≤ i := by
        by_contra hlt
        push_neg at hlt
        rw [List.getElem?_eq_getElem hlt] at hg
        cases hg
      rw [List.drop_eq_nil_iff.mpr hge]
    | some x =>
      have hi : i < r.data.length := by
        by_contra hge
        push_neg at hge
        rw [List.getElem?_eq_none hge] at hg
        cases hg
      have hx : r.data[i] = x := by
        rw [List.getElem?_eq_getElem hi] at hg
        exact Option.some.inj hg
      rw [List.drop_eq_getElem_cons hi, hx]
      unfold array_range_nopred.next_idx
      rw [ih (i + 1) (by omega)]

/-- The forward iteration of the no-predicate specialization observes the
underlying array itself. -/
theorem fwd_seq_np_eq {T : Type} (r : array_range_nopred T) :
    r.fwd_seq = r.data := by
  unfold array_range_nopred.fwd_seq array_range_nopred.begin_idx
  rw [collectFwdNp_eq r (r.data.length + 1) 0 (by omega), List.drop_zero]

/-- Backward traversal of the no-predicate specialization from index
`j - 1` collects the first `j` elements in reverse order. -/
theorem collectRevNp_eq {T : Type} (r : array_range_nopred T) :
    ∀ (j fuel : Nat), j ≤ r.data.length → j < fuel →
    collectRevNp r fuel ((j : Int) - 1) = (r.data.take j).reverse := by
  intro j
  induction j with
  | zero =>
    intro fuel _ hf
    cases fuel with
    | zero => omega
    | succ f => simp [collectRevNp]
  | succ j ih =>
    intro fuel hle hf
    have hj : j < r.data.length := hle
    have hget : r.data[j]? = some r.data[j] := List.getElem?_eq_getElem hj
    have htake : r.data.take (j + 1) = r.data.take j ++ [r.data[j]] :=
      (List.take_concat_get' r.data j hj).symm
    cases fuel with
    | zero => omega
    | succ f =>
      have hcast : ((j + 1 : Nat) : Int) - 1 = (j : Int) := by push_cast; ring
      rw [hcast]
      simp only [collectRevNp]
      rw [if_neg (by omega : ¬((j : Int) < 0))]
      simp only [Int.toNat_natCast, hget]
      rw [htake, List.reverse_append]
      simp only [List.reverse_cons, List.reverse_nil, List.nil_append,
        List.singleton_append]
      congr 1
      have hprev : r.prev_idx (j : Int) = (j : Int) - 1 := rfl
      rw [hprev]
      exact ih f (le_of_lt hj) (Nat.lt_of_succ_lt_succ hf)

/-- The reverse iteration of the no-predicate specialization observes the
reversed underlying array. -/
theorem rev_seq_np_eq {T : Type} (r : array_range_nopred T) :
    r.rev_seq = r.data.reverse := by
  unfold array_range_nopred.rev_seq array_range_nopred.rbegin_idx
  have := collectRevNp_eq r r.data.length (r.data.length + 1) (le_refl _)
    (by omega)
  rw [List.take_length] at this
  exact this

/-- Sample predicate-filtered range over `[1, 2, 3, 4]` keeping the even
elements, used by concrete witnesses. -/
def sampleRange : array_range_pred Nat := ⟨[1, 2, 3, 4], fun x => x % 2 == 0⟩

/-- C5: over the same underlying array, the predicate specialization with a
predicate accepting every element (in particular the always-true default
predicate) is observationally equal to the no-predicate specialization:
equal `size()`, equal `empty()`, and identical element sequences under
forward and under reverse iteration. -/
theorem claim_c5 {T : Type} (data : List T) (p : T → Bool)
    (hp : ∀ x ∈ data, p x = true) :
    (array_range_pred.mk data p).size = (array_range_nopred.mk data).size ∧
    (array_range_pred.mk data p).empty =
      (array_range_nopred.mk data).empty ∧
    (array_range_pred.mk data p).fwd_seq =
      (array_range_nopred.mk data).fwd_seq ∧
    (array_range_pred.mk data p).rev_seq =
      (array_range_nopred.mk data).rev_seq := by
  refine ⟨?_, ?_, ?_, ?_⟩
  · simp only [array_range_pred.size, array_range_nopred.size]
    exact List.countP_eq_length.mpr (fun a ha => hp a ha)
  · simp only [array_range_pred.empty, array_range_nopred.empty,
      array_range_pred.begin_idx, array_range_pred.end_idx]
    cases data with
    | nil => rfl
    | cons x xs =>
      rw [show firstFromAux p (x :: xs) 0 = 0 from by
        simp [firstFromAux, hp x (List.mem_cons_self x xs)]]
      simp
  · have h1 := fwd_seq_eq_filter (array_range_pred.mk data p)
    have h2 := fwd_seq_np_eq (array_range_nopred.mk data)
    simp only at h1 h2
    rw [h1, h2]
    exact List.filter_eq_self.mpr hp
  · have h1 := rev_seq_eq_filter_reverse (array_range_pred.mk data p)
    have h2 := rev_seq_np_eq (array_range_nopred.mk data)
    simp only at h1 h2
    rw [h1, h2, List.filter_eq_self.mpr hp]

/-- Witness for C5 over a concrete array, using the stored always-true
lambda of the default-constructed `default_predicate`. -/
theorem claim_c5_witness :
    (array_range_pred.mk [1, 2, 3]
        (default_predicate.mkDefault Nat).call).size =
      (array_range_nopred.mk [1, 2, 3]).size ∧
    (array_range_pred.mk [1, 2, 3]
        (default_predicate.mkDefault Nat).call).empty =
      (array_range_nopred.mk [1, 2, 3]).empty ∧
    (array_range_pred.mk [1, 2, 3]
        (default_predicate.mkDefault Nat).call).fwd_seq =
      (array_range_nopred.mk [1, 2, 3]).fwd_seq ∧
    (array_range_pred.mk [1, 2, 3]
        (default_predicate.mkDefault Nat).call).rev_seq =
      (array_range_nopred.mk [1, 2, 3]).rev_seq :=
  claim_c5 [1, 2, 3] (default_predicate.mkDefault Nat).call
    (fun x _ => rfl)

/-- C6: `begin() == end()` holds exactly when the range is logically empty
(the underlying array is empty or the predicate rejects every element), and
`size()` is the number of elements accepted by the predicate, not the raw
length of the underlying array. -/
theorem claim_c6 {T : Type} (r : array_range_pred T) :
    (r.begin_idx = r.end_idx ↔
      (r.data = [] ∨ ∀ x ∈ r.data, r.m_pred x = false)) ∧
    r.size = (r.data.filter r.m_pred).length := by
  constructor
  · simp only [array_range_pred.begin_idx, array_range_pred.end_idx]
    constructor
    · intro h
      right
      exact (firstFromAux_eq_iff r.m_pred r.data 0).mp (by simpa using h)
    · rintro (hnil | h)
      · simp [hnil, firstFromAux]
      · have := (firstFromAux_eq_iff r.m_pred r.data 0).mpr h
        simpa using this
  · simp only [array_range_pred.size]
    exact List.countP_eq_length_filter r.m_pred r.data

/-- C7: forward iteration visits exactly the accepted elements in their
original array order, reverse iteration visits exactly the accepted
elements in reverse array order, and the reverse sequence is the reversal
of the forward sequence. -/
theorem claim_c7 {T : Type} (r : array_range_pred T) :
    r.fwd_seq = r.data.filter r.m_pred ∧
    r.rev_seq = (r.data.filter r.m_pred).reverse ∧
    r.rev_seq = r.fwd_seq.reverse := by
  refine ⟨fwd_seq_eq_filter r, rev_seq_eq_filter_reverse r, ?_⟩
  rw [fwd_seq_eq_filter r, rev_seq_eq_filter_reverse r]

/-- C8: every iterator position a predicate-filtered range produces — the
initial position of `begin()` or `rbegin()`, or the position after
advancing with `next` from a valid forward position or with `prev` from a
valid reverse position — is either the corresponding end position or a
position holding an element the predicate accepts; it is never left on a
rejected element. -/
theorem claim_c8 {T : Type} (r : array_range_pred T) (i : Nat) (j : Int)
    (hi : i < r.end_idx) (hj : 0 ≤ j) :
    (r.begin_idx = r.end_idx ∨
      ∃ x, r.data[r.begin_idx]? = some x ∧ r.m_pred x = true) ∧
    (r.next_idx i = r.end_idx ∨
      ∃ x, r.data[r.next_idx i]? = some x ∧ r.m_pred x = true) ∧
    (r.rbegin_idx = r.rend_idx ∨
      ∃ k : Nat, r.rbegin_idx = (k : Int) ∧
        ∃ x, r.data[k]? = some x ∧ r.m_pred x = true) ∧
    (r.prev_idx j = r.rend_idx ∨
      ∃ k : Nat, r.prev_idx j = (k : Int) ∧
        ∃ x, r.data[k]? = some x ∧ r.m_pred x = true) := by
  refine ⟨?_, ?_, ?_, ?_⟩
  · rcases firstFromAux_result r.m_pred r.data 0 with h | ⟨k, hk, heq, x, hx, hpx⟩
    · left
      simp only [array_range_pred.begin_idx, array_range_pred.end_idx]
      simpa using h
    · right
      refine ⟨x, ?_, hpx⟩
      have hb : r.begin_idx = k := by
        simp only [array_range_pred.begin_idx]
        simpa using heq
      rw [hb]
      exact hx
  · rcases firstFromAux_result r.m_pred (r.data.drop (i + 1)) (i + 1) with
      h | ⟨k, hk, heq, x, hx, hpx⟩
    · left
      simp only [array_range_pred.next_idx, array_range_pred.end_idx]
      simp only [array_range_pred.end_idx] at hi
      rw [h, List.length_drop]
      omega
    · right
      refine ⟨x, ?_, hpx⟩
      have hn : r.next_idx i = (i + 1) + k := by
        simp only [array_range_pred.next_idx]
        exact heq
      rw [hn, ← List.getElem?_drop]
      exact hx
  · rcases lastBelow_result r.m_pred r.data r.data.length with
      h | ⟨k, hk, hlt, x, hx, hpx⟩
    · left
      simpa [array_range_pred.rbegin_idx, array_range_pred.rend_idx] using h
    · right
      exact ⟨k, by simpa [array_range_pred.rbegin_idx] using hk, x, hx, hpx⟩
  · rcases lastBelow_result r.m_pred r.data j.toNat with
      h | ⟨k, hk, hlt, x, hx, hpx⟩
    · left
      simpa [array_range_pred.prev_idx, array_range_pred.rend_idx] using h
    · right
      exact ⟨k, by simpa [array_range_pred.prev_idx] using hk, x, hx, hpx⟩

/-- Witness for C8 on a concrete filtered range, advancing forward from
position 1 and backward from position 3. -/
theorem claim_c8_witness :
    (sampleRange.begin_idx = sampleRange.end_idx ∨
      ∃ x, sampleRange.data[sampleRange.begin_idx]? = some x ∧
        sampleRange.m_pred x = true) ∧
    (sampleRange.next_idx 1 = sampleRange.end_idx ∨
      ∃ x, sampleRange.data[sampleRange.next_idx 1]? = some x ∧
        sampleRange.m_pred x = true) ∧
    (sampleRange.rbegin_idx = sampleRange.rend_idx ∨
      ∃ k : Nat, sampleRange.rbegin_idx = (k : Int) ∧
        ∃ x, sampleRange.data[k]? = some x ∧ sampleRange.m_pred x = true) ∧
    (sampleRange.prev_idx 3 = sampleRange.rend_idx ∨
      ∃ k : Nat, sampleRange.prev_idx 3 = (k : Int) ∧
        ∃ x, sampleRange.data[k]? = some x ∧ sampleRange.m_pred x = true) :=
  claim_c8 sampleRange 1 3 (by decide) (by decide)

/-- An observable operation on an array range view. -/
inductive ROp where
  | rBegin
  | rEnd
  | rRbegin
  | rRend
  | rSize
  | rEmpty
  | rNext (i : Nat)
  | rPrev (i : Int)

/-- Result of one observable range operation. -/
inductive ROpResult where
  | posF (i : Nat)
  | posR (i : Int)
  | cnt (n : Nat)
  | flag (b : Bool)

/-- State-passing semantics of one operation on the predicate
specialization. The stored bounds and predicate are `const` members in the
source class, so each operation returns the view state it was called on. -/
def array_range_pred.run {T : Type} (r : array_range_pred T) :
    ROp → ROpResult × array_range_pred T
  | .rBegin => (.posF r.begin_idx, r)
  | .rEnd => (.posF r.end_idx, r)
  | .rRbegin => (.posR r.rbegin_idx, r)
  | .rRend => (.posR r.rend_idx, r)
  | .rSize => (.cnt r.size, r)
  | .rEmpty => (.flag r.empty, r)
  | .rNext i => (.posF (r.next_idx i), r)
  | .rPrev i => (.posR (r.prev_idx i), r)

/-- State-passing semantics of one operation on the no-predicate
specialization. -/
def array_range_nopred.run {T : Type} (r : array_range_nopred T) :
    ROp → ROpResult × array_range_nopred T
  | .rBegin => (.posF r.begin_idx, r)
  | .rEnd => (.posF r.end_idx, r)
  | .rRbegin => (.posR r.rbegin_idx, r)
  | .rRend => (.posR r.rend_idx, r)
  | .rSize => (.cnt r.size, r)
  | .rEmpty => (.flag r.empty, r)
  | .rNext i => (.posF (r.next_idx i), r)
  | .rPrev i => (.posR (r.prev_idx i), r)

/-- C10: every array range (either specialization) is an immutable view
after construction: no observable operation changes the stored bounds or
predicate, and after any sequence of prior operations the same operation
still produces the same result. -/
theorem claim_c10 {T : Type} (r : array_range_pred T)
    (rn : array_range_nopred T) (op : ROp) (ops : List ROp) :
    (r.run op).2 = r ∧ (rn.run op).2 = rn ∧
    (ops.foldl (fun s o => (s.run o).2) r).run op = r.run op ∧
    (ops.foldl (fun s o => (s.run o).2) rn).run op = rn.run op := by
  have hP : ∀ (v : array_range_pred T) (o : ROp), (v.run o).2 = v := by
    intro v o; cases o <;> rfl
  have hN : ∀ (v : array_range_nopred T) (o : ROp), (v.run o).2 = v := by
    intro v o; cases o <;> rfl
  have hfP : ops.foldl (fun s o => (s.run o).2) r = r := by
    induction ops with
    | nil => rfl
    | cons o os ih => simp [List.foldl_cons, hP, ih]
  have hfN : ops.foldl (fun s o => (s.run o).2) rn = rn := by
    induction ops with
    | nil => rfl
    | cons o os ih => simp [List.foldl_cons, hN, ih]
  exact ⟨hP r op, hN rn op, by rw [hfP], by rw [hfN]⟩
